import Mathlib

/-!
Verification development for the multireql transpiler core
(`conversion_utils.py`, `java_converter.py`, `ruby_converter.py`).

The development shallowly embeds

* the two identifier case converters `camel` and `dromedary`,
* the context-propagation analyzer `IsReql` (a Python `ast.NodeVisitor`
  that stores a boolean `is_reql` attribute on every node it visits), and
* the Java and Ruby emitters (`Visitor`/`ReQLVisitor` classes writing into
  a `StringIO` buffer),

restricted to the expression kinds exercised by the properties under
study: numbers, name constants, names, attributes, calls (with positional
and keyword arguments), subscripts (index and slice), unary and binary
operators, lists, lambdas, single-expression assignments, and boolean
operations (the latter having no dedicated analyzer or emitter rule).
String and bytes literals, comparisons, dicts, tuples and comprehensions
are outside the modelled kind set.

Python exceptions are modelled as values of a structure `Err` recording
the exception class name and message; the `StringIO` output buffer is
modelled by explicit state passing (`Em := String → Except Err String`).
-/

/-! ## Case converter (`conversion_utils.camel` / `conversion_utils.dromedary`) -/

/-- Model of Python `str.title()` restricted to ASCII: a letter is
upper-cased when the previous character is not a letter, lower-cased
otherwise; non-letters (digits, underscores) pass through and reset the
word boundary. -/
def pyTitleGo : Bool → List Char → List Char
  | _, [] => []
  | prevCased, c :: cs =>
    if c.isAlpha then
      (if prevCased then c.toLower else c.toUpper) :: pyTitleGo true cs
    else
      c :: pyTitleGo false cs

/-- Python `s.title()` on an ASCII identifier chunk. -/
def pyTitle (s : String) : String := ⟨pyTitleGo false s.data⟩

/-- Python `s.split('_')` on the character list: splitting on every
underscore, keeping empty chunks (so a trailing underscore yields a final
empty chunk). -/
def splitUnderscore : List Char → List (List Char)
  | [] => [[]]
  | c :: cs =>
    if c = '_' then [] :: splitUnderscore cs
    else
      match splitUnderscore cs with
      | [] => [[c]]
      | g :: gs => (c :: g) :: gs

/-- The regex `[A-Z][A-Z0-9_]*$|[a-z][a-z0-9_]*$` used by both case
converters: whole-string upper snake or lower snake. -/
def matchesSnake (s : String) : Bool :=
  match s.data with
  | [] => false
  | c :: rest =>
    (c.isUpper && rest.all (fun d => d.isUpper || d.isDigit || d = '_')) ||
    (c.isLower && rest.all (fun d => d.isLower || d.isDigit || d = '_'))

/-- Python `s.endswith('_')`. -/
def endsUnderscore (s : String) : Bool :=
  match s.data.getLast? with
  | some c => c = '_'
  | Option.none => false

/-- `conversion_utils.camel` (CamelCase): snake-case inputs are split on
underscores, each chunk title-cased and joined, a trailing underscore
re-appended; other inputs only have their first character upper-cased.
Python raises `IndexError` on an empty non-snake input; identifiers are
nonempty, and the model returns `""` there. -/
def camel (varname : String) : String :=
  if matchesSnake varname then
    let suffix := if endsUnderscore varname then "_" else ""
    String.join ((splitUnderscore varname.data).map (fun g => pyTitle ⟨g⟩)) ++ suffix
  else
    match varname.data with
    | [] => ""
    | c :: cs => ⟨c.toUpper :: cs⟩

/-- `conversion_utils.dromedary` (dromedaryCase): snake-case inputs have
their first chunk lower-cased and the remaining chunks title-cased, joined,
with a trailing underscore preserved; other inputs only have their first
character lower-cased. -/
def dromedary (varname : String) : String :=
  if matchesSnake varname then
    let chunks := (splitUnderscore varname.data).map (fun g => (⟨g⟩ : String))
    let suffix := if endsUnderscore varname then "_" else ""
    (⟨(chunks.headD "").data.map Char.toLower⟩ : String) ++
      String.join ((chunks.drop 1).map pyTitle) ++ suffix
  else
    match varname.data with
    | [] => ""
    | c :: cs => ⟨c.toLower :: cs⟩

/-! ## Expression trees

`Node` is the untagged input tree (what the parser hands to
`add_is_reql_flags`); `TNode` is the same tree where every node carries
the optional `is_reql` attribute (`Option.none` models an absent
attribute, reading which raises `AttributeError`). -/

/-- Python `ast.NameConstant` payloads (`None` / `True` / `False`). -/
inductive PyConst where
  | none
  | true
  | false
deriving DecidableEq

/-- Unary operators (`ast.USub`, `ast.Not`, `ast.UAdd`, `ast.Invert`). -/
inductive UOp where
  | usub
  | not_
  | uadd
  | invert
deriving DecidableEq

/-- Binary operators (`ast.Add` … `ast.Pow`). -/
inductive BOpK where
  | add
  | sub
  | mult
  | div
  | mod
  | pow
deriving DecidableEq

mutual

inductive Node where
  | num (n : Int)
  | nameC (v : PyConst)
  | name (id : String)
  | attr (value : Node) (attrName : String)
  | call (func : Node) (args : List Node) (keywords : List Keyword)
  | subscript (value : Node) (slice : Sl)
  | unaryOp (op : UOp) (operand : Node)
  | binOp (left : Node) (op : BOpK) (right : Node)
  | lst (elts : List Node)
  | lam (params : List String) (body : Node)
  | assign (targets : List String) (value : Node)
  | boolOp (values : List Node)

inductive Sl where
  | index (value : Node)
  | slice (lower upper step : Option Node)

inductive Keyword where
  | mk (arg : String) (value : Node)

end

mutual

inductive TNode where
  | num (tag : Option Bool) (n : Int)
  | nameC (tag : Option Bool) (v : PyConst)
  | name (tag : Option Bool) (id : String)
  | attr (tag : Option Bool) (value : TNode) (attrName : String)
  | call (tag : Option Bool) (func : TNode) (args : List TNode) (keywords : List TKeyword)
  | subscript (tag : Option Bool) (value : TNode) (slice : TSl)
  | unaryOp (tag : Option Bool) (op : UOp) (operand : TNode)
  | binOp (tag : Option Bool) (left : TNode) (op : BOpK) (right : TNode)
  | lst (tag : Option Bool) (elts : List TNode)
  | lam (tag : Option Bool) (params : List String) (body : TNode)
  | assign (tag : Option Bool) (targets : List String) (value : TNode)
  | boolOp (tag : Option Bool) (values : List TNode)

inductive TSl where
  | index (tag : Option Bool) (value : TNode)
  | slice (tag : Option Bool) (lower upper step : Option TNode)

inductive TKeyword where
  | mk (tag : Option Bool) (arg : String) (value : TNode)

end

/-- The `is_reql` attribute of a tagged node (`Option.none` = absent). -/
def TNode.tagOf : TNode → Option Bool
  | .num tg _ => tg
  | .nameC tg _ => tg
  | .name tg _ => tg
  | .attr tg _ _ => tg
  | .call tg _ _ _ => tg
  | .subscript tg _ _ => tg
  | .unaryOp tg _ _ => tg
  | .binOp tg _ _ _ => tg
  | .lst tg _ => tg
  | .lam tg _ _ => tg
  | .assign tg _ _ => tg
  | .boolOp tg _ => tg

/-- The `is_reql` attribute of a tagged index/slice node. -/
def TSl.tagOf : TSl → Option Bool
  | .index tg _ => tg
  | .slice tg _ _ _ => tg

/-- Reading `child.is_reql` right after the analyzer visited the child:
every analyzer rule stores a tag, so the attribute is present and `getD`
never falls back to its default (see `IsReql.visit_tag_isSome`). -/
def tagD (t : TNode) : Bool := (TNode.tagOf t).getD false

mutual

/-- Embedding of a raw tree into tagged trees with every `is_reql`
attribute absent (the state of a tree the analyzer never traversed). -/
def untag : Node → TNode
  | .num n => .num Option.none n
  | .nameC v => .nameC Option.none v
  | .name id => .name Option.none id
  | .attr v a => .attr Option.none (untag v) a
  | .call f args kws => .call Option.none (untag f) (untagList args) (untagKws kws)
  | .subscript v sl => .subscript Option.none (untag v) (untagSl sl)
  | .unaryOp op o => .unaryOp Option.none op (untag o)
  | .binOp l op r => .binOp Option.none (untag l) op (untag r)
  | .lst elts => .lst Option.none (untagList elts)
  | .lam ps body => .lam Option.none ps (untag body)
  | .assign tgts v => .assign Option.none tgts (untag v)
  | .boolOp vs => .boolOp Option.none (untagList vs)

def untagList : List Node → List TNode
  | [] => []
  | n :: ns => untag n :: untagList ns

def untagKws : List Keyword → List TKeyword
  | [] => []
  | .mk a v :: ks => .mk Option.none a (untag v) :: untagKws ks

def untagSl : Sl → TSl
  | .index v => .index Option.none (untag v)
  | .slice lo hi st => .slice Option.none (untagOpt lo) (untagOpt hi) (untagOpt st)

def untagOpt : Option Node → Option TNode
  | Option.none => Option.none
  | some n => some (untag n)

end

/-! ## Context propagation analyzer (`conversion_utils.IsReql`) -/

/-- Analyzer state: the visitor's `reql_vars` set (identifiers bound to
the query root) and its `passed_to_reql` flag (the inherited context). -/
structure Ctx where
  reql_vars : List String
  passed_to_reql : Bool
deriving DecidableEq

namespace IsReql

mutual

/-- `IsReql.visit` dispatch: dedicated rules for Name, Attribute, Lambda,
Call, Subscript, UnaryOp, BinOp and List; Num, NameConstant, Assign and
BoolOp fall to `generic_visit`, which stores `is_reql = False` and does
not traverse the node (descendants stay untagged). -/
def visit (ctx : Ctx) : Node → TNode
  | .name id => .name (some (ctx.reql_vars.contains id)) id
  | .attr v a =>
    let v2 := visit ctx v
    .attr (some (tagD v2)) v2 a
  | .lam ps body =>
    if ctx.passed_to_reql then
      .lam (some Bool.true) ps (visit ⟨ctx.reql_vars ++ ps, Bool.false⟩ body)
    else
      .lam (some Bool.false) ps (visit ⟨ctx.reql_vars, Bool.false⟩ body)
  | .call f args kws =>
    let f2 := visit ctx f
    let tg := tagD f2
    let pp := if tg then Ctx.mk ctx.reql_vars Bool.true else ctx
    .call (some tg) f2 (visitList pp args) (visitKeywords pp (some tg) kws)
  | .subscript v sl =>
    let v2 := visit ctx v
    let tg := tagD v2
    let pp := if tg then Ctx.mk ctx.reql_vars Bool.true else ctx
    .subscript (some tg) v2 (visitSlice pp sl)
  | .unaryOp op o =>
    let o2 := visit ctx o
    .unaryOp (some (tagD o2)) op o2
  | .binOp l op r =>
    let l2 := visit ctx l
    let r2 := visit ctx r
    .binOp (some (decide (op ≠ BOpK.pow) && (tagD l2 || tagD r2))) l2 op r2
  | .lst elts => .lst (some Bool.false) (visitList ctx elts)
  | .num n => .num (some Bool.false) n
  | .nameC v => .nameC (some Bool.false) v
  | .assign tgts v => .assign (some Bool.false) tgts (untag v)
  | .boolOp vs => .boolOp (some Bool.false) (untagList vs)

def visitList (ctx : Ctx) : List Node → List TNode
  | [] => []
  | n :: ns => visit ctx n :: visitList ctx ns

/-- Keyword arguments of a call: `keyword.is_reql = node.is_reql` (the
call's tag), and the keyword value is visited with the same sub-visitor
`pp` as the positional arguments. -/
def visitKeywords (ctx : Ctx) (callTag : Option Bool) : List Keyword → List TKeyword
  | [] => []
  | .mk a v :: ks => .mk callTag a (visit ctx v) :: visitKeywords ctx callTag ks

/-- `visit_Index` / `visit_Slice`: the index value and every slice bound
are visited by a fresh visitor with `passed_to_reql=False`; the
index/slice node's own tag is the visiting visitor's `passed_to_reql`. -/
def visitSlice (ctx : Ctx) : Sl → TSl
  | .index v => .index (some ctx.passed_to_reql) (visit ⟨ctx.reql_vars, Bool.false⟩ v)
  | .slice lo hi st =>
    .slice (some ctx.passed_to_reql) (visitBound ctx lo) (visitBound ctx hi) (visitBound ctx st)

def visitBound (ctx : Ctx) : Option Node → Option TNode
  | Option.none => Option.none
  | some n => some (visit ⟨ctx.reql_vars, Bool.false⟩ n)

end

/-- `conversion_utils.add_is_reql_flags` with the default arguments:
`reql_vars=None` (hence `{'r'}`) and `passed_to_reql=False`. -/
def addIsReqlFlags (n : Node) : TNode := visit ⟨["r"], Bool.false⟩ n

/-- Every node the analyzer visits gets an `is_reql` tag. -/
theorem visit_tag_isSome (ctx : Ctx) (n : Node) : (visit ctx n).tagOf.isSome := by
  cases n <;> (simp only [visit]; (try split) <;> simp [TNode.tagOf])

end IsReql

/-- Sanity of the analyzer model on the default scope: the root name is
tagged, other names are not, and a lambda passed directly to a tagged
call is tagged with its parameter added to the scope of its body. -/
theorem addIsReqlFlags_sanity :
    IsReql.addIsReqlFlags (.name "r") = .name (some Bool.true) "r" ∧
    IsReql.addIsReqlFlags (.name "x") = .name (some Bool.false) "x" ∧
    IsReql.addIsReqlFlags (.call (.name "r") [.lam ["x"] (.name "x")] []) =
      .call (some Bool.true) (.name (some Bool.true) "r")
        [.lam (some Bool.true) ["x"] (.name (some Bool.true) "x")] [] :=
  ⟨rfl, rfl, rfl⟩

/-! ## Output buffer model

Both emitters write into a `StringIO` buffer (`self.out`) and `convert`
returns `self.out.getvalue()`; a raised exception aborts the conversion.
`Em` models one visitor step as a function from the buffer contents to
either an exception or the new buffer contents. -/

/-- A Python exception: class name and message. -/
structure Err where
  cls : String
  msg : String
deriving DecidableEq

/-- One emitter step acting on the output buffer. -/
def Em : Type := String → Except Err String

/-- `self.write(t)`: append `t` to the buffer. -/
def wr (t : String) : Em := fun s => Except.ok (s ++ t)

/-- `raise e`: abort the conversion. -/
def thr (e : Err) : Em := fun _ => Except.error e

/-- A step that writes nothing. -/
def nop : Em := fun s => Except.ok s

/-- Sequencing of two steps (Python statements one after the other). -/
def eseq (f g : Em) : Em := fun s =>
  match f s with
  | Except.error e => Except.error e
  | Except.ok s2 => g s2

/-- Reading `node.is_reql` in an emitter: an absent attribute raises
`AttributeError`, otherwise the continuation receives the boolean. -/
def getTag (tg : Option Bool) (k : Bool → Em) : Em :=
  match tg with
  | Option.none => thr ⟨"AttributeError", "is_reql"⟩
  | some b => k b

/-- Running a fallible pure computation inside an emitter step. -/
def exceptK {α : Type} (x : Except Err α) (k : α → Em) : Em :=
  match x with
  | Except.error e => thr e
  | Except.ok a => k a

/-- Buffer independence: the step appends a delta (or raises an error)
that does not depend on what was already in the buffer. All emitter
steps have this property, which is exactly why one `convert` run cannot
observe state left behind by an earlier one. -/
def BufIndep (f : Em) : Prop :=
  ∀ s, f s = Except.map (fun o => s ++ o) (f "")

theorem bufIndep_wr (t : String) : BufIndep (wr t) := by
  intro s
  simp [wr, Except.map]

theorem bufIndep_thr (e : Err) : BufIndep (thr e) := by
  intro s
  simp [thr, Except.map]

theorem bufIndep_nop : BufIndep nop := by
  intro s
  simp [nop, Except.map]

theorem bufIndep_eseq {f g : Em} (hf : BufIndep f) (hg : BufIndep g) :
    BufIndep (eseq f g) := by
  intro s
  simp only [eseq, hf s]
  cases hfe : f "" with
  | error e => simp [Except.map]
  | ok o =>
    simp only [Except.map]
    rw [hg (s ++ o), hg o]
    cases g "" with
    | error e => simp [Except.map]
    | ok o2 => simp [Except.map, String.append_assoc]

theorem bufIndep_getTag (tg : Option Bool) (k : Bool → Em)
    (hk : ∀ b, BufIndep (k b)) : BufIndep (getTag tg k) := by
  cases tg with
  | none => exact bufIndep_thr _
  | some b => exact hk b

theorem bufIndep_exceptK {α : Type} (x : Except Err α) (k : α → Em)
    (hk : ∀ a, BufIndep (k a)) : BufIndep (exceptK x k) := by
  cases x with
  | error e => exact bufIndep_thr _
  | ok a => exact hk a

theorem bufIndep_ite (c : Prop) [Decidable c] {f g : Em}
    (hf : BufIndep f) (hg : BufIndep g) : BufIndep (if c then f else g) := by
  split
  · exact hf
  · exact hg

/-! ## Shared AST inspection helpers (`java_converter.is_name` etc.) -/

/-- `is_name(name, node)`: the node is a `Name` with the given id. -/
def is_name (nm : String) : TNode → Bool
  | .name _ id => id == nm
  | _ => Bool.false

/-- Node kind test used by both emitters (`type(node) == ast.Lambda`). -/
def isLam : TNode → Bool
  | .lam _ _ _ => Bool.true
  | _ => Bool.false

/-- Node kind test (`type(node) == ast.Num`). -/
def isNumT : TNode → Bool
  | .num _ _ => Bool.true
  | _ => Bool.false

/-- Positivity of `sizeOf` on lists, used by termination measures. -/
theorem sizeOf_list_pos {α : Type} [SizeOf α] (l : List α) : 0 < sizeOf l := by
  cases l <;> simp_arith

/-! ## Java emitter (`java_converter.Visitor` / `java_converter.ReQLVisitor`) -/

namespace Java

/-- `JAVA_KEYWORDS` from `java_converter.py`. -/
def JAVA_KEYWORDS : List String :=
  ["abstract", "continue", "for", "new", "switch", "assert",
   "default", "goto", "package", "synchronized", "boolean", "do",
   "if", "private", "this", "break", "double", "implements",
   "protected", "throw", "byte", "else", "import", "public",
   "throws", "case", "enum", "instanceof", "return", "transient",
   "catch", "extends", "int", "short", "try", "char", "final",
   "interface", "static", "void", "class", "finally", "long",
   "strictfp", "volatile", "const", "float", "native", "super",
   "while"]

/-- `OBJECT_METHODS` from `java_converter.py`. -/
def OBJECT_METHODS : List String :=
  ["clone", "equals", "finalize", "hashCode", "getClass",
   "notify", "notifyAll", "wait", "toString"]

/-- Lowercase hexadecimal digit. -/
def hexDigit (n : Nat) : Char :=
  if n < 10 then Char.ofNat (48 + n) else Char.ofNat (87 + n)

/-- Two lowercase hexadecimal digits of a byte. -/
def hex2 (n : Nat) : String := ⟨[hexDigit (n / 16 % 16), hexDigit (n % 16)]⟩

/-- Python `repr(c)[1:-1]` for a one-character string: backslash and
whitespace controls are escaped, other control characters become `\xNN`,
a single quote keeps its bare form (`repr` switches to double quotes
around it), and printable characters print themselves (code points ≥ 128
are treated as printable in this model). -/
def pyCharReprNoQuotes (c : Char) : String :=
  if c = '\\' then "\\\\"
  else if c = Char.ofNat 39 then ⟨[Char.ofNat 39]⟩
  else if c = '\t' then "\\t"
  else if c = '\n' then "\\n"
  else if c = '\r' then "\\r"
  else if c.toNat < 32 || c.toNat = 127 then "\\x" ++ hex2 c.toNat
  else ⟨[c]⟩

/-- One character of `escape_string`: short `\xNN` escapes are expanded
to `\u00NN` (Java rejects `\x`), a double quote is escaped, anything
else is passed through from `repr`. -/
def escapeChar (c : Char) : String :=
  let rpr := pyCharReprNoQuotes c
  match rpr.data with
  | '\\' :: 'x' :: rest => "\\u00" ++ (⟨rest⟩ : String)
  | _ => if rpr = "\"" then "\\\"" else rpr

/-- `java_converter.escape_string`: double-quoted, character by character. -/
def escape_string (s : String) : String :=
  "\"" ++ String.join (s.data.map escapeChar) ++ "\""

/-- Emitter configuration: the constructor arguments of `Visitor` other
than the output buffer (`type_` already converted by `py_to_java_type`). -/
structure Cfg where
  reql_vars : List String
  type_ : Option String
  is_def : Bool
  smart_bracket : Bool

/-- The default `Visitor(...)` configuration. -/
def initCfg : Cfg := ⟨["r"], Option.none, Bool.false, Bool.true⟩

/-- Which class the current `self` is: the plain `Visitor` or the
`ReQLVisitor` subclass (method dispatch is by class). -/
inductive VCls where
  | base
  | reql
deriving DecidableEq

/-- `visit_Num`: `repr` of the integer plus an `L` suffix, or `.0` when
the value does not fit a signed 64-bit long. -/
def visit_Num (n : Int) : Em :=
  eseq (wr (toString n))
    (if n > 9223372036854775807 ∨ n < -9223372036854775808 then wr ".0" else wr "L")

/-- The literal replacement table in `visit_Name`. -/
def nameMapped (n : String) : String :=
  if n = "True" then "true"
  else if n = "False" then "false"
  else if n = "None" then "null"
  else if n = "nil" then "null"
  else n

/-- `visit_Name`: `frozenset` triggers a skip rule; names colliding with
Java keywords or `Object` methods get a trailing underscore; the boolean
and null literals are mapped. -/
def visit_Name (id : String) : Em :=
  if id = "frozenset" then
    thr ⟨"RuntimeError", "can\x27t convert frozensets to GroupedData yet"⟩
  else
    let nm := if JAVA_KEYWORDS.contains id || OBJECT_METHODS.contains id then id ++ "_" else id
    wr (nameMapped nm)

/-- `visit_NameConstant`. -/
def visit_NameConstant : PyConst → Em
  | PyConst.none => wr "null"
  | PyConst.true => wr "true"
  | PyConst.false => wr "false"

/-- The second disjunct of the `cast_null` test is Python
`arg.value == "None"`: it compares the `NameConstant` payload
(`None`/`True`/`False`) with the *string* `"None"`, which is never equal,
so a genuine null literal fails the test. -/
def valueEqStrNone (_ : PyConst) : Bool := Bool.false

/-- The condition of `cast_null`: a `Name` node with id `null`, or a
`NameConstant` whose payload equals the string `"None"` (see
`valueEqStrNone`). -/
def isCastNullArg : TNode → Bool
  | .name _ id => id == "null"
  | .nameC _ v => valueEqStrNone v
  | _ => Bool.false

/-- The `python_clashes` table plus `dromedary` fallback and the
`method_aliases` table (`{dromedary('GET_FIELD'): 'g'} = {'getField': 'g'}`)
from `ReQLVisitor.visit_Attribute`. -/
def reql_attr_initial (a : String) : String :=
  let initial0 :=
    if a = "or_" then "or"
    else if a = "and_" then "and"
    else if a = "not_" then "not"
    else dromedary a
  if initial0 == "getField" then "g" else initial0

/-- `attr_equals(node, "attr", v)`: only attribute nodes have an `attr`
field. -/
def attr_equals (f : TNode) (v : String) : Bool :=
  match f with
  | .attr _ _ a => a == v
  | _ => Bool.false

/-- `get_slice_bounds`'s inner `get_bound`: a missing bound gives the
default, `-literal` appears as `UnaryOp(USub, Num)` and is negated
(`-bound.operand.n` raises `AttributeError` when the operand is not a
number), a number literal gives its value, anything else raises. -/
def get_bound (bound : Option TNode) (dflt : Int) : Except Err Int :=
  match bound with
  | Option.none => Except.ok dflt
  | some (.unaryOp _ UOp.usub operand) =>
    match operand with
    | .num _ n => Except.ok (-n)
    | _ => Except.error ⟨"AttributeError", "n"⟩
  | some (.num _ n) => Except.ok n
  | some _ => Except.error ⟨"RuntimeError", "Not handling bound"⟩

/-- `ReQLVisitor.get_slice_bounds` on the fields of an `ast.Slice`: the
lower bound defaults to 0, the upper to -1, and the slice is marked
right-closed exactly when the upper bound was omitted. (The `if not slc`
guard of the source is unreachable: an AST node is always truthy.) -/
def get_slice_bounds (lo hi : Option TNode) : Except Err (Int × Int × Bool) :=
  match get_bound lo 0 with
  | Except.error e => Except.error e
  | Except.ok l =>
    match get_bound hi (-1) with
    | Except.error e => Except.error e
    | Except.ok u => Except.ok (l, u, hi.isNone)

/-- The `check` predicate inside `ReQLVisitor.visit_Call` for `map`
arguments: lambdas, `r.js(...)` calls and names count as function-like.
`attr_matches("r.js", node.func)` reads `node.func.value`, which raises
`AttributeError` when the callee is not an attribute node. -/
def map_arg_check : TNode → Except Err Bool
  | .lam _ _ _ => Except.ok Bool.true
  | .call _ cf _ _ =>
    match cf with
    | .attr _ av aa => Except.ok (is_name "r" av && aa == "js")
    | _ => Except.error ⟨"AttributeError", "value"⟩
  | .name _ _ => Except.ok Bool.true
  | _ => Except.ok Bool.false

/-- The post-`super()` checks of `ReQLVisitor.visit_Call`: `for_each`
with a non-lambda first argument and `map` with a non-function-like last
argument are skip rules; indexing an empty argument list raises
`IndexError`. -/
def reql_call_checks (f : TNode) (args : List TNode) : Em :=
  if attr_equals f "for_each" then
    match args with
    | [] => thr ⟨"IndexError", "list index out of range"⟩
    | a :: _ =>
      if isLam a then nop
      else thr ⟨"RuntimeError", "the java driver doesn\x27t allow non-function arguments to forEach"⟩
  else if attr_equals f "map" then
    match args.getLast? with
    | Option.none => thr ⟨"IndexError", "list index out of range"⟩
    | some a =>
      exceptK (map_arg_check a) (fun fnLike =>
        if fnLike then nop
        else thr ⟨"RuntimeError", "the java driver statically checks that map contains a function argument"⟩)
  else nop

/-- `skip_if_arity_check`: with string literals outside the modelled
kind set, `node.args[1].s` always raises `AttributeError`, which the
surrounding `except (AttributeError, TypeError)` swallows — but indexing
`node.args[1]` raises an uncaught `IndexError` first when an `err(...)`
call has fewer than two arguments. `convert_if_string_encode` likewise
always returns `False` without string literals and is omitted. -/
def skip_if_arity_check (f : TNode) (args : List TNode) : Em :=
  match f with
  | .name _ id =>
    if id == "err" then
      match args with
      | _ :: _ :: _ => nop
      | _ => thr ⟨"IndexError", "list index out of range"⟩
    else nop
  | _ => nop

/-- `visit_UnaryOp`'s operator table. -/
def uopStr : UOp → String
  | UOp.usub => "-"
  | UOp.not_ => "!"
  | UOp.uadd => "+"
  | UOp.invert => "~"

/-- `visit_BinOp`'s native operator table (`jsMap`). -/
def jsMap : BOpK → String
  | BOpK.add => " + "
  | BOpK.sub => " - "
  | BOpK.mult => " * "
  | BOpK.div => " / "
  | BOpK.mod => " % "
  | BOpK.pow => " ** "

/-- `visit_BinOp`'s ReQL method table (`reqlMap`); `Pow` has no entry, so
looking it up raises `KeyError`. -/
def reqlMap : BOpK → Option String
  | BOpK.add => some "add"
  | BOpK.sub => some "sub"
  | BOpK.mult => some "mul"
  | BOpK.div => some "div"
  | BOpK.mod => some "mod"
  | BOpK.pow => Option.none

mutual

/-- The visitor dispatch (`ast.NodeVisitor.visit`), resolved per class:
`ReQLVisitor` overrides `visit_Attribute`, `visit_Call`,
`visit_Subscript` and `visit_UnaryOp`; all other methods are shared.
`BoolOp` has no method and falls to `generic_visit`, which raises. -/
def visit (cls : VCls) (cfg : Cfg) : TNode → Em
  | .num _ n => visit_Num n
  | .nameC _ v => visit_NameConstant v
  | .name _ id => visit_Name id
  | .attr _ v a => visit_Attribute cls cfg Bool.true v a
  | .call _ f args kws =>
    match cls with
    | VCls.base => visit_Call_base VCls.base cfg f args kws
    | VCls.reql => eseq (visit_Call_base VCls.reql cfg f args kws) (reql_call_checks f args)
  | .subscript _ v sl =>
    match cls with
    | VCls.base =>
      -- Visitor.visit_Subscript: only integer index subscripts convert;
      -- the guard reads `node.slice.value` (AttributeError on an
      -- ast.Slice) and the error message reads `node.slice.value.s`
      -- (AttributeError on a non-string index value)
      match sl with
      | TSl.index _ iv =>
        match iv with
        | .num _ n =>
          eseq (visit VCls.base cfg v) (eseq (wr ".get(") (eseq (wr (toString n)) (wr ")")))
        | _ => thr ⟨"AttributeError", "s"⟩
      | TSl.slice _ _ _ _ => thr ⟨"AttributeError", "value"⟩
    | VCls.reql =>
      -- ReQLVisitor.visit_Subscript (string-literal indices are outside
      -- the modelled kind set, so the `.g(` sugar branch cannot fire)
      eseq (visit VCls.reql cfg v)
        (match sl with
         | TSl.index _ iv =>
           if cfg.smart_bracket && isNumT iv then
             eseq (wr ".nth(") (eseq (visit VCls.reql cfg iv) (wr ")"))
           else
             eseq (wr ".bracket(") (eseq (visit VCls.reql cfg iv) (wr ")"))
         | TSl.slice _ lo hi _ =>
           eseq (wr ".slice(")
             (exceptK (get_slice_bounds lo hi) (fun b =>
               eseq (wr (toString b.1))
                 (eseq (wr ", ")
                   (eseq (wr (toString b.2.1))
                     (eseq (wr ")")
                       (if b.2.2 then wr ".optArg(\"right_bound\", \"closed\")" else nop)))))))
  | .unaryOp _ op o =>
    match cls with
    | VCls.base => eseq (wr (uopStr op)) (visit VCls.base cfg o)
    | VCls.reql =>
      -- ReQLVisitor.visit_UnaryOp: `~` becomes `.not()`, the rest defers
      -- to the superclass
      match op with
      | UOp.invert => eseq (visit VCls.reql cfg o) (wr ".not()")
      | _ => eseq (wr (uopStr op)) (visit VCls.reql cfg o)
  | .binOp tg l op r =>
    -- visit_BinOp (shared): a tagged operation renders as a fluent
    -- method chain, lifting an untagged left operand with `r.expr(`;
    -- `reqlMap[type(node.op)]` raises KeyError for Pow
    match tg with
    | Option.none => thr ⟨"AttributeError", "is_reql"⟩
    | some b =>
      if b then
        match l.tagOf with
        | Option.none => thr ⟨"AttributeError", "is_reql"⟩
        | some lb =>
          eseq (if lb then nop else wr "r.expr(")
            (eseq (visit cls cfg l)
              (eseq (if lb then nop else wr ")")
                (eseq (wr ".")
                  (match reqlMap op with
                   | Option.none => thr ⟨"KeyError", "<class \x27_ast.Pow\x27>"⟩
                   | some m => eseq (wr m) (eseq (wr "(") (eseq (visit cls cfg r) (wr ")")))))))
      else
        eseq (visit cls cfg l) (eseq (wr (jsMap op)) (visit cls cfg r))
  | .lst _ elts => eseq (wr "r.array(") (eseq (join cls cfg ", " elts) (wr ")"))
  | .lam _ ps body =>
    -- visit_Lambda: a single parameter is written bare; otherwise
    -- `to_args` over plain `arg` nodes, which fail both `cast_null`
    -- type tests and render as their names, reduces to a
    -- parenthesised comma-joined parameter list
    eseq (match ps with
          | [p] => wr p
          | _ => wr ("(" ++ String.intercalate ", " ps ++ ")"))
      (eseq (wr " -> ") (visit cls cfg body))
  | .assign tg tgts v => visit_Assign cls cfg tg tgts v
  | .boolOp _ _ =>
    thr ⟨"RuntimeError", "Don\x27t know what this thing is: <class \x27_ast.BoolOp\x27>"⟩
termination_by t => (sizeOf t, 0)
decreasing_by all_goals (simp_wf; rw [Prod.lex_iff]; (try simp_arith) <;> omega)

/-- `Visitor.visit_Attribute` and `ReQLVisitor.visit_Attribute`
(dispatched on the class). The base method skips the `r.` prefix for
`r.ast`; the ReQL method skips `r.row`, and for any other direct
attribute of `r` evaluates `self.TOPLEVEL_CONSTANTS` — an attribute the
class does not define (the table is a module-level global), so the
lookup raises `AttributeError` (therefore `is_toplevel_constant` can
never become true and the `emit_parens` suffix is dead code). -/
def visit_Attribute (cls : VCls) (cfg : Cfg) (emit_parens : Bool) (v : TNode) (a : String) : Em :=
  match cls with
  | VCls.base =>
    eseq (if is_name "r" v && a == "ast" then nop else eseq (visit VCls.base cfg v) (wr "."))
      (wr (dromedary a))
  | VCls.reql =>
    if is_name "r" v && a == "row" then
      thr ⟨"RuntimeError", "Java driver doesn\x27t support r.row"⟩
    else if is_name "r" v then thr ⟨"AttributeError", "TOPLEVEL_CONSTANTS"⟩
    else
      let initial := reql_attr_initial a
      eseq (visit VCls.reql cfg v)
        (eseq (wr ".")
          (eseq (wr initial)
            (if JAVA_KEYWORDS.contains initial || OBJECT_METHODS.contains initial then wr "_"
             else nop)))
termination_by (sizeOf v, 1)
decreasing_by all_goals (simp_wf; rw [Prod.lex_iff]; (try simp_arith) <;> omega)

/-- `Visitor.visit_Call` (the `super()` body): the arity-check filter,
then the callee — via `visit_Attribute(node.func, emit_parens=False)`
for an `error` attribute — then the argument list. -/
def visit_Call_base (cls : VCls) (cfg : Cfg) (f : TNode) (args : List TNode)
    (kws : List TKeyword) : Em :=
  eseq (skip_if_arity_check f args)
    (eseq
      (if attr_equals f "error" then visit_Attribute_node cls cfg Bool.false f
       else visit cls cfg f)
      (to_args cls cfg args kws))
termination_by (sizeOf f + sizeOf args + sizeOf kws, 3)
decreasing_by all_goals (simp_wf; rw [Prod.lex_iff]; (try simp_arith) <;> omega)

/-- `Visitor.visit_Assign`: the multi-target guard constructs a
`RuntimeError` without raising it, so conversion continues with
`targets[0]`; `self.type + " "` raises `TypeError` when no type was
declared; a tagged value is rendered by a freshly constructed
`ReQLVisitor` sharing the buffer (with `is_def=True` and the default
`smart_bracket=True`). -/
def visit_Assign (cls : VCls) (cfg : Cfg) (tg : Option Bool) (tgts : List String)
    (v : TNode) : Em :=
  match cfg.type_ with
  | Option.none => thr ⟨"TypeError", "unsupported operand types for +: NoneType and str"⟩
  | some ty =>
    match tgts with
    | [] => eseq (wr (ty ++ " ")) (thr ⟨"IndexError", "list index out of range"⟩)
    | t0 :: _ =>
      eseq (wr (ty ++ " "))
        (eseq (wr t0)
          (eseq (wr " = (")
            (eseq (wr ty)
              (eseq (wr ") (")
                (eseq (visit_Assign_value cls cfg tg v) (wr ");"))))))
termination_by (sizeOf v, 2)
decreasing_by all_goals (simp_wf; rw [Prod.lex_iff]; (try simp_arith) <;> omega)

/-- The value rendering inside `visit_Assign` (reads `node.is_reql`). -/
def visit_Assign_value (cls : VCls) (cfg : Cfg) (tg : Option Bool) (v : TNode) : Em :=
  match tg with
  | Option.none => thr ⟨"AttributeError", "is_reql"⟩
  | some b =>
    match b with
    | Bool.true =>
      visit VCls.reql { cfg with is_def := Bool.true, smart_bracket := Bool.true } v
    | Bool.false => visit cls cfg v
termination_by (sizeOf v, 1)
decreasing_by all_goals (simp_wf; rw [Prod.lex_iff]; (try simp_arith) <;> omega)

/-- `self.visit_Attribute(node.func, emit_parens=False)` on a whole node
(the argument is an attribute node whenever this is called). -/
def visit_Attribute_node (cls : VCls) (cfg : Cfg) (emit_parens : Bool) : TNode → Em
  | .attr _ v a => visit_Attribute cls cfg emit_parens v a
  | t => visit cls cfg t
termination_by t => (sizeOf t, 2)
decreasing_by all_goals (simp_wf; rw [Prod.lex_iff]; (try simp_arith) <;> omega)

/-- `Visitor.to_args`: parenthesised positional arguments, each passed
through `cast_null`, followed by chained `.optArg(...)` calls for the
keyword arguments. -/
def to_args (cls : VCls) (cfg : Cfg) (args : List TNode) (kws : List TKeyword) : Em :=
  eseq (wr "(")
    (eseq
      (match args with
       | [] => nop
       | a :: rest => eseq (cast_null cls cfg a) (args_rest cls cfg rest))
      (eseq (wr ")") (optargs cls cfg kws)))
termination_by (sizeOf args + sizeOf kws, 2)
decreasing_by all_goals (simp_wf; rw [Prod.lex_iff]; (try simp_arith) <;> omega)

/-- The `for arg in args[1:]` loop of `to_args`. -/
def args_rest (cls : VCls) (cfg : Cfg) : List TNode → Em
  | [] => nop
  | a :: rest => eseq (wr ", ") (eseq (cast_null cls cfg a) (args_rest cls cfg rest))
termination_by args => (sizeOf args, 1)
decreasing_by all_goals (simp_wf; rw [Prod.lex_iff]; (try simp_arith) <;> omega)

/-- `Visitor.cast_null`: prefix the rendered argument with
`(ReqlExpr) ` when `isCastNullArg` holds. -/
def cast_null (cls : VCls) (cfg : Cfg) (arg : TNode) : Em :=
  eseq (if isCastNullArg arg then eseq (wr "(") (eseq (wr "ReqlExpr") (wr ") ")) else nop)
    (visit cls cfg arg)
termination_by (sizeOf arg, 1)
decreasing_by all_goals (simp_wf; rw [Prod.lex_iff]; (try simp_arith) <;> omega)

/-- The `for optarg in optargs` loop of `to_args`. -/
def optargs (cls : VCls) (cfg : Cfg) : List TKeyword → Em
  | [] => nop
  | .mk _ a v :: rest =>
    eseq (wr ".optArg(")
      (eseq (wr (escape_string a))
        (eseq (wr ", ")
          (eseq (visit cls cfg v)
            (eseq (wr ")") (optargs cls cfg rest)))))
termination_by kws => (sizeOf kws, 1)
decreasing_by all_goals (simp_wf; rw [Prod.lex_iff]; (try simp_arith) <;> omega)

/-- `Visitor.join`. -/
def join (cls : VCls) (cfg : Cfg) (sep : String) : List TNode → Em
  | [] => nop
  | x :: xs => eseq (visit cls cfg x) (join_rest cls cfg sep xs)
termination_by l => (sizeOf l, 1)
decreasing_by all_goals (simp_wf; rw [Prod.lex_iff]; (try simp_arith) <;> omega)

/-- The tail of `Visitor.join` (separator before every later element). -/
def join_rest (cls : VCls) (cfg : Cfg) (sep : String) : List TNode → Em
  | [] => nop
  | x :: xs => eseq (wr sep) (eseq (visit cls cfg x) (join_rest cls cfg sep xs))
termination_by l => (sizeOf l, 1)
decreasing_by all_goals (simp_wf; rw [Prod.lex_iff]; (try simp_arith) <;> omega)

end

/-- `Visitor(...).convert(node)`: visit into a fresh buffer and return
its contents. -/
def convert (cfg : Cfg) (t : TNode) : Except Err String :=
  visit VCls.base cfg t ""

end Java

/-! ## Ruby emitter (`ruby_converter.Visitor`) -/

namespace Ruby

/-- Python `args[:-1]` / `args[-1]` as one structural operation. -/
def splitLast : List TNode → Option (List TNode × TNode)
  | [] => Option.none
  | [a] => some ([], a)
  | a :: b :: rest =>
    match splitLast (b :: rest) with
    | some (front, l) => some (a :: front, l)
    | Option.none => Option.none

theorem splitLast_size :
    ∀ (l : List TNode) (front : List TNode) (lastA : TNode),
      splitLast l = some (front, lastA) →
      sizeOf lastA < sizeOf l ∧ sizeOf front ≤ sizeOf l := by
  intro l
  induction l with
  | nil => intro front lastA h; simp [splitLast] at h
  | cons a rest ih =>
    intro front lastA h
    cases rest with
    | nil =>
      simp [splitLast] at h
      obtain ⟨h1, h2⟩ := h
      subst h1; subst h2
      simp_arith
    | cons b rest2 =>
      simp only [splitLast] at h
      cases hs : splitLast (b :: rest2) with
      | none => rw [hs] at h; simp at h
      | some p =>
        rw [hs] at h
        obtain ⟨front2, l2⟩ := p
        simp at h
        obtain ⟨h1, h2⟩ := h
        have hrec := ih front2 l2 hs
        subst h1; subst h2
        simp_arith at hrec ⊢
        omega

/-- `visit_Name` (ruby): `frozenset` is a skip rule; `True`/`False`/`None`
map to their Ruby literals. -/
def visit_Name (id : String) : Em :=
  if id = "frozenset" then thr ⟨"Exception", "can\x27t convert frozensets"⟩
  else
    wr (if id = "True" then "true"
        else if id = "False" then "false"
        else if id = "None" then "nil"
        else id)

/-- The ruby binary operator table (`opMap` in `visit_BinOp`). -/
def rubyOpStr : BOpK → String
  | BOpK.add => " + "
  | BOpK.sub => " - "
  | BOpK.mult => " * "
  | BOpK.div => " / "
  | BOpK.mod => " % "
  | BOpK.pow => " ** "

mutual

/-- The ruby visitor dispatch. The ruby emitter never reads `is_reql`;
`BoolOp` has no method and falls to `generic_visit`, which raises. -/
def visit : TNode → Em
  | .num _ n => wr (toString n)
  | .nameC _ v =>
    match v with
    | PyConst.none => wr "nil"
    | PyConst.true => wr "true"
    | PyConst.false => wr "false"
  | .name _ id => visit_Name id
  | .attr _ v a => eseq (visit v) (eseq (wr ".") (wr a))
  | .call _ f args kws =>
    -- visit_Call: `r.expr(x)` renders as `r(x)`; a trailing lambda
    -- argument is pulled out of the parenthesised argument list
    eseq (visit_Call_func f) (visit_Call_args kws args)
  | .subscript _ v sl =>
    eseq (visit v)
      (match sl with
       | TSl.index _ iv => eseq (wr "[") (eseq (visit iv) (wr "]"))
       | TSl.slice _ lo hi _ =>
         -- visit_Subscript: `self.visit(node.slice.lower)` is called
         -- unconditionally; visiting None raises inside generic_visit
         -- (`ast.dump(None)` is a TypeError)
         eseq (wr "[(")
           (eseq (match lo with
                  | some l => visit l
                  | Option.none => thr ⟨"TypeError", "expected AST, got NoneType"⟩)
             (eseq (match hi with
                    | some u => eseq (wr "...") (visit u)
                    | Option.none => wr "..-1")
               (wr ")]"))))
  | .unaryOp _ op o => eseq (wr (Java.uopStr op)) (visit o)
  | .binOp _ l op r =>
    eseq (wr "(")
      (eseq (visit l) (eseq (wr (rubyOpStr op)) (eseq (visit r) (wr ")"))))
  | .lst _ elts => eseq (wr "[") (eseq (join_list elts) (wr "]"))
  | .lam _ ps body =>
    eseq (wr "\x7b|")
      (eseq (wr (String.intercalate ", " ps))
        (eseq (wr "| ") (eseq (visit body) (wr "\x7d"))))
  | .assign _ tgts v =>
    match tgts with
    | [t0] => eseq (wr t0) (eseq (wr " = ") (visit v))
    | _ => thr ⟨"Exception", "We only support assigning to one variable"⟩
  | .boolOp _ _ =>
    thr ⟨"Exception", "Don\x27t know what this thing is: <class \x27_ast.BoolOp\x27>"⟩
termination_by t => (sizeOf t, 0)
decreasing_by all_goals (simp_wf; rw [Prod.lex_iff]; (try simp_arith) <;>
  (first
    | omega
    | (have hsz := splitLast_size _ _ _ hs; simp_arith at hsz ⊢ <;> omega)))

/-- The callee rendering of the ruby `visit_Call`: `r.expr` renders as
just `r` (so `r.expr(x)` becomes `r(x)`). -/
def visit_Call_func : TNode → Em
  | .attr ftg fv fa =>
    if fa == "expr" && is_name "r" fv then visit fv else visit (.attr ftg fv fa)
  | g => visit g
termination_by f => (sizeOf f, 1)
decreasing_by all_goals (simp_wf; rw [Prod.lex_iff]; (try simp_arith) <;> omega)

/-- The argument rendering of the ruby `visit_Call`: when the last
positional argument is a lambda it is rendered as a trailing block after
`to_args` of the remaining arguments. -/
def visit_Call_args (kws : List TKeyword) (args : List TNode) : Em :=
  match hs : splitLast args with
  | some (front, lastA) =>
    if isLam lastA then eseq (to_args front kws) (visit lastA)
    else to_args args kws
  | Option.none => to_args args kws
termination_by (sizeOf args + sizeOf kws, 3)
decreasing_by all_goals (simp_wf; rw [Prod.lex_iff]; (try simp_arith) <;>
  (first
    | omega
    | (have hsz := splitLast_size _ _ _ hs; simp_arith at hsz ⊢ <;> omega)))

/-- `Visitor.to_args` (ruby): idiomatic Ruby skips empty parentheses;
otherwise the positional arguments and `name: value` keyword pairs are
joined inside one pair of parentheses. -/
def to_args (args : List TNode) (kws : List TKeyword) : Em :=
  if args.isEmpty && kws.isEmpty then nop
  else eseq (wr "(") (eseq (join_mixed args kws) (wr ")"))
termination_by (sizeOf args + sizeOf kws, 2)
decreasing_by all_goals (simp_wf; rw [Prod.lex_iff]; (try simp_arith) <;> omega)

/-- `self.join(", ", args + optargs)`: first element bare, then a
separator before each further element; keyword nodes render via
`visit_keyword`. -/
def join_mixed : List TNode → List TKeyword → Em
  | [], [] => nop
  | [], k :: ks => eseq (visit_keyword k) (join_kw_rest ks)
  | a :: rest, ks => eseq (visit a) (eseq (join_rest rest) (join_kw_rest ks))
termination_by args kws => (sizeOf args + sizeOf kws, 1)
decreasing_by all_goals (simp_wf; rw [Prod.lex_iff]; (try simp_arith) <;> omega)

def join_list : List TNode → Em
  | [] => nop
  | x :: xs => eseq (visit x) (join_rest xs)
termination_by l => (sizeOf l, 1)
decreasing_by all_goals (simp_wf; rw [Prod.lex_iff]; (try simp_arith) <;> omega)

def join_rest : List TNode → Em
  | [] => nop
  | x :: xs => eseq (wr ", ") (eseq (visit x) (join_rest xs))
termination_by l => (sizeOf l, 1)
decreasing_by all_goals (simp_wf; rw [Prod.lex_iff]; (try simp_arith) <;> omega)

def join_kw_rest : List TKeyword → Em
  | [] => nop
  | k :: ks => eseq (wr ", ") (eseq (visit_keyword k) (join_kw_rest ks))
termination_by l => (sizeOf l, 1)
decreasing_by all_goals (simp_wf; rw [Prod.lex_iff]; (try simp_arith) <;> omega)

/-- `visit_keyword` (ruby): `name: value`. -/
def visit_keyword : TKeyword → Em
  | .mk _ a v => eseq (wr a) (eseq (wr ": ") (visit v))
termination_by k => (sizeOf k, 1)
decreasing_by all_goals (simp_wf; rw [Prod.lex_iff]; (try simp_arith) <;> omega)

end

/-- `Visitor().convert(node)` (ruby). -/
def convert (t : TNode) : Except Err String := visit t ""

end Ruby

/-! ## Buffer independence of the emitters

Every visitor method appends text that depends only on the node, the
tags and the configuration — never on what is already in the buffer —
and each `convert` call starts from a fresh buffer, so emission is a
pure function of (tree, tags, config). -/

/-- Positivity of `sizeOf` on tagged nodes. -/
theorem tnode_sizeOf_pos (t : TNode) : 0 < sizeOf t := by
  cases t <;> simp_arith

/-- Shorthand: the visit of this node is buffer-independent for every
class and configuration. -/
def BIV (t : TNode) : Prop :=
  ∀ (c2 : Java.VCls) (g2 : Java.Cfg), BufIndep (Java.visit c2 g2 t)

namespace Java

theorem bi_visit_Num (n : Int) : BufIndep (visit_Num n) := by
  unfold visit_Num
  apply bufIndep_eseq (bufIndep_wr _)
  exact bufIndep_ite _ (bufIndep_wr _) (bufIndep_wr _)

theorem bi_visit_Name (id : String) : BufIndep (visit_Name id) := by
  unfold visit_Name
  apply bufIndep_ite _ (bufIndep_thr _) (bufIndep_wr _)

theorem bi_visit_NameConstant (v : PyConst) : BufIndep (visit_NameConstant v) := by
  cases v <;> (unfold visit_NameConstant; exact bufIndep_wr _)

theorem bi_skip_if_arity_check (f : TNode) (args : List TNode) :
    BufIndep (skip_if_arity_check f args) := by
  unfold skip_if_arity_check
  cases f <;> try exact bufIndep_nop
  case name tg id =>
    dsimp only
    split
    · match args with
      | [] => exact bufIndep_thr _
      | [_] => exact bufIndep_thr _
      | _ :: _ :: _ => exact bufIndep_nop
    · exact bufIndep_nop

theorem bi_reql_call_checks (f : TNode) (args : List TNode) :
    BufIndep (reql_call_checks f args) := by
  unfold reql_call_checks
  apply bufIndep_ite
  · match args with
    | [] => exact bufIndep_thr _
    | a :: _ => exact bufIndep_ite _ bufIndep_nop (bufIndep_thr _)
  · apply bufIndep_ite
    · match args.getLast? with
      | Option.none => exact bufIndep_thr _
      | some a =>
        apply bufIndep_exceptK
        intro b
        exact bufIndep_ite _ bufIndep_nop (bufIndep_thr _)
    · exact bufIndep_nop

theorem bi_cast_null (cls : VCls) (cfg : Cfg) (arg : TNode)
    (h : BufIndep (visit cls cfg arg)) : BufIndep (cast_null cls cfg arg) := by
  simp only [cast_null]
  apply bufIndep_eseq _ h
  apply bufIndep_ite
  · exact bufIndep_eseq (bufIndep_wr _) (bufIndep_eseq (bufIndep_wr _) (bufIndep_wr _))
  · exact bufIndep_nop

theorem bi_args_rest (cls : VCls) (cfg : Cfg) :
    ∀ (args : List TNode), (∀ a ∈ args, BufIndep (visit cls cfg a)) →
      BufIndep (args_rest cls cfg args)
  | [], _ => by simp only [args_rest]; exact bufIndep_nop
  | a :: rest, h => by
    simp only [args_rest]
    apply bufIndep_eseq (bufIndep_wr _)
    apply bufIndep_eseq
    · exact bi_cast_null cls cfg a (h a (by simp))
    · exact bi_args_rest cls cfg rest (fun x hx => h x (by simp [hx]))

theorem bi_optargs (cls : VCls) (cfg : Cfg) :
    ∀ (kws : List TKeyword),
      (∀ tg a v, TKeyword.mk tg a v ∈ kws → BufIndep (visit cls cfg v)) →
      BufIndep (optargs cls cfg kws)
  | [], _ => by simp only [optargs]; exact bufIndep_nop
  | TKeyword.mk tg a v :: rest, h => by
    simp only [optargs]
    apply bufIndep_eseq (bufIndep_wr _)
    apply bufIndep_eseq (bufIndep_wr _)
    apply bufIndep_eseq (bufIndep_wr _)
    apply bufIndep_eseq
    · exact h tg a v (by simp)
    · apply bufIndep_eseq (bufIndep_wr _)
      exact bi_optargs cls cfg rest (fun tg2 a2 v2 hx => h tg2 a2 v2 (by simp [hx]))

theorem bi_to_args (cls : VCls) (cfg : Cfg) (args : List TNode) (kws : List TKeyword)
    (hargs : ∀ a ∈ args, BufIndep (visit cls cfg a))
    (hkws : ∀ tg a v, TKeyword.mk tg a v ∈ kws → BufIndep (visit cls cfg v)) :
    BufIndep (to_args cls cfg args kws) := by
  cases args with
  | nil =>
    simp only [to_args]
    apply bufIndep_eseq (bufIndep_wr _)
    apply bufIndep_eseq bufIndep_nop
    exact bufIndep_eseq (bufIndep_wr _) (bi_optargs cls cfg kws hkws)
  | cons a rest =>
    simp only [to_args]
    apply bufIndep_eseq (bufIndep_wr _)
    apply bufIndep_eseq
    · apply bufIndep_eseq
      · exact bi_cast_null cls cfg a (hargs a (by simp))
      · exact bi_args_rest cls cfg rest (fun x hx => hargs x (by simp [hx]))
    · exact bufIndep_eseq (bufIndep_wr _) (bi_optargs cls cfg kws hkws)

theorem bi_join_rest (cls : VCls) (cfg : Cfg) (sep : String) :
    ∀ (l : List TNode), (∀ x ∈ l, BufIndep (visit cls cfg x)) →
      BufIndep (join_rest cls cfg sep l)
  | [], _ => by simp only [join_rest]; exact bufIndep_nop
  | x :: xs, h => by
    simp only [join_rest]
    apply bufIndep_eseq (bufIndep_wr _)
    apply bufIndep_eseq
    · exact h x (by simp)
    · exact bi_join_rest cls cfg sep xs (fun y hy => h y (by simp [hy]))

theorem bi_join (cls : VCls) (cfg : Cfg) (sep : String) (l : List TNode)
    (h : ∀ x ∈ l, BufIndep (visit cls cfg x)) : BufIndep (join cls cfg sep l) := by
  cases l with
  | nil => simp only [join]; exact bufIndep_nop
  | cons x xs =>
    simp only [join]
    apply bufIndep_eseq
    · exact h x (by simp)
    · exact bi_join_rest cls cfg sep xs (fun y hy => h y (by simp [hy]))

theorem bi_visit_Attribute (cls : VCls) (cfg : Cfg) (ep : Bool) (v : TNode) (a : String)
    (hv : ∀ c2, BufIndep (visit c2 cfg v)) :
    BufIndep (visit_Attribute cls cfg ep v a) := by
  cases cls with
  | base =>
    simp only [visit_Attribute]
    apply bufIndep_eseq _ (bufIndep_wr _)
    apply bufIndep_ite
    · exact bufIndep_nop
    · exact bufIndep_eseq (hv _) (bufIndep_wr _)
  | reql =>
    simp only [visit_Attribute]
    apply bufIndep_ite _ (bufIndep_thr _)
    apply bufIndep_ite _ (bufIndep_thr _)
    apply bufIndep_eseq (hv _)
    apply bufIndep_eseq (bufIndep_wr _)
    apply bufIndep_eseq (bufIndep_wr _)
    exact bufIndep_ite _ (bufIndep_wr _) bufIndep_nop

theorem bi_visit_Attribute_node (cls : VCls) (cfg : Cfg) (ep : Bool) (t : TNode)
    (h : ∀ c2, BufIndep (visit c2 cfg t))
    (hsub : ∀ tg v a, t = TNode.attr tg v a → ∀ c2, BufIndep (visit c2 cfg v)) :
    BufIndep (visit_Attribute_node cls cfg ep t) := by
  cases t
  case attr tg v a =>
    simp only [visit_Attribute_node]
    exact bi_visit_Attribute cls cfg ep v a (hsub tg v a rfl)
  all_goals (simp only [visit_Attribute_node]; exact h _)

theorem bi_visit_Call_base (cls : VCls) (cfg : Cfg) (f : TNode) (args : List TNode)
    (kws : List TKeyword)
    (hf : ∀ c2, BufIndep (visit c2 cfg f))
    (hsub : ∀ tg v a, f = TNode.attr tg v a → ∀ c2, BufIndep (visit c2 cfg v))
    (hargs : ∀ a ∈ args, BufIndep (visit cls cfg a))
    (hkws : ∀ tg a v, TKeyword.mk tg a v ∈ kws → BufIndep (visit cls cfg v)) :
    BufIndep (visit_Call_base cls cfg f args kws) := by
  simp only [visit_Call_base]
  apply bufIndep_eseq (bi_skip_if_arity_check f args)
  apply bufIndep_eseq
  · apply bufIndep_ite
    · exact bi_visit_Attribute_node cls cfg Bool.false f hf hsub
    · exact hf cls
  · exact bi_to_args cls cfg args kws hargs hkws

theorem bi_visit_Assign_value (cls : VCls) (cfg : Cfg) (tg : Option Bool) (v : TNode)
    (hv : BIV v) : BufIndep (visit_Assign_value cls cfg tg v) := by
  cases tg with
  | none => simp only [visit_Assign_value]; exact bufIndep_thr _
  | some b =>
    cases b <;> (simp only [visit_Assign_value]; exact hv _ _)

theorem bi_visit_Assign (cls : VCls) (cfg : Cfg) (tg : Option Bool) (tgts : List String)
    (v : TNode) (hv : BIV v) : BufIndep (visit_Assign cls cfg tg tgts v) := by
  cases hty : cfg.type_ with
  | none => simp only [visit_Assign, hty]; exact bufIndep_thr _
  | some ty =>
    cases tgts with
    | nil =>
      simp only [visit_Assign, hty]
      exact bufIndep_eseq (bufIndep_wr _) (bufIndep_thr _)
    | cons t0 rest =>
      simp only [visit_Assign, hty]
      apply bufIndep_eseq (bufIndep_wr _)
      apply bufIndep_eseq (bufIndep_wr _)
      apply bufIndep_eseq (bufIndep_wr _)
      apply bufIndep_eseq (bufIndep_wr _)
      apply bufIndep_eseq (bufIndep_wr _)
      exact bufIndep_eseq (bi_visit_Assign_value cls cfg tg v hv) (bufIndep_wr _)

end Java

namespace Java

/-- Every `Java.visit` step is buffer-independent (strong induction on
the node size). -/
theorem bi_visit_strong :
    ∀ (n : Nat) (t : TNode), sizeOf t ≤ n → BIV t := by
  intro n
  induction n with
  | zero =>
    intro t ht
    exact absurd ht (by have := tnode_sizeOf_pos t; omega)
  | succ n ih =>
    intro t ht c2 g2
    cases t with
    | num tg nn => simp only [visit]; exact bi_visit_Num _
    | nameC tg v => simp only [visit]; exact bi_visit_NameConstant _
    | name tg id => simp only [visit]; exact bi_visit_Name _
    | attr tg v a =>
      have hv : BIV v := ih v (by simp_arith at ht; omega)
      simp only [visit]
      exact bi_visit_Attribute c2 g2 Bool.true v a (fun c3 => hv c3 g2)
    | call tg f args kws =>
      have hf : BIV f := ih f (by simp_arith at ht; omega)
      have hargs : ∀ a ∈ args, BufIndep (visit c2 g2 a) := by
        intro a ha
        apply ih a ?_ c2 g2
        have h1 := List.sizeOf_lt_of_mem ha
        simp_arith at ht
        omega
      have hkws : ∀ ktg ka kv, TKeyword.mk ktg ka kv ∈ kws → BufIndep (visit c2 g2 kv) := by
        intro ktg ka kv hk
        apply ih kv ?_ c2 g2
        have h1 := List.sizeOf_lt_of_mem hk
        simp_arith at ht h1
        omega
      have hsub : ∀ tg2 v2 a2, f = TNode.attr tg2 v2 a2 → ∀ c3, BufIndep (visit c3 g2 v2) := by
        intro tg2 v2 a2 heq c3
        apply ih v2 ?_ c3 g2
        subst heq
        simp_arith at ht
        omega
      cases c2 with
      | base =>
        simp only [visit]
        exact bi_visit_Call_base _ g2 f args kws (fun c3 => hf c3 g2) hsub hargs hkws
      | reql =>
        simp only [visit]
        exact bufIndep_eseq
          (bi_visit_Call_base _ g2 f args kws (fun c3 => hf c3 g2) hsub hargs hkws)
          (bi_reql_call_checks f args)
    | subscript tg v sl =>
      have hv : BIV v := ih v (by simp_arith at ht; omega)
      cases c2 with
      | base =>
        cases sl with
        | index itg iv =>
          cases iv
          case num ntg nn =>
            simp only [visit]
            apply bufIndep_eseq (hv _ _)
            exact bufIndep_eseq (bufIndep_wr _) (bufIndep_eseq (bufIndep_wr _) (bufIndep_wr _))
          all_goals (simp only [visit]; exact bufIndep_thr _)
        | slice stg lo hi st => simp only [visit]; exact bufIndep_thr _
      | reql =>
        cases sl with
        | index itg iv =>
          have hiv : BIV iv := ih iv (by simp_arith at ht; omega)
          simp only [visit]
          apply bufIndep_eseq (hv _ _)
          apply bufIndep_ite
          · exact bufIndep_eseq (bufIndep_wr _) (bufIndep_eseq (hiv _ _) (bufIndep_wr _))
          · exact bufIndep_eseq (bufIndep_wr _) (bufIndep_eseq (hiv _ _) (bufIndep_wr _))
        | slice stg lo hi st =>
          simp only [visit]
          apply bufIndep_eseq (hv _ _)
          apply bufIndep_eseq (bufIndep_wr _)
          apply bufIndep_exceptK
          intro b
          apply bufIndep_eseq (bufIndep_wr _)
          apply bufIndep_eseq (bufIndep_wr _)
          apply bufIndep_eseq (bufIndep_wr _)
          apply bufIndep_eseq (bufIndep_wr _)
          exact bufIndep_ite _ (bufIndep_wr _) bufIndep_nop
    | unaryOp tg op o =>
      have ho : BIV o := ih o (by simp_arith at ht; omega)
      cases c2 with
      | base => simp only [visit]; exact bufIndep_eseq (bufIndep_wr _) (ho _ _)
      | reql =>
        cases op <;> simp only [visit] <;>
          first
            | exact bufIndep_eseq (ho _ _) (bufIndep_wr _)
            | exact bufIndep_eseq (bufIndep_wr _) (ho _ _)
    | binOp tg l op r =>
      have hl : BIV l := ih l (by simp_arith at ht; omega)
      have hr : BIV r := ih r (by simp_arith at ht; omega)
      cases tg with
      | none => simp only [visit]; exact bufIndep_thr _
      | some b =>
        simp only [visit]
        apply bufIndep_ite
        · cases hlt : TNode.tagOf l with
          | none => exact bufIndep_thr _
          | some lb =>
            apply bufIndep_eseq (bufIndep_ite _ bufIndep_nop (bufIndep_wr _))
            apply bufIndep_eseq (hl _ _)
            apply bufIndep_eseq (bufIndep_ite _ bufIndep_nop (bufIndep_wr _))
            apply bufIndep_eseq (bufIndep_wr _)
            cases hm : reqlMap op with
            | none => exact bufIndep_thr _
            | some m =>
              apply bufIndep_eseq (bufIndep_wr _)
              apply bufIndep_eseq (bufIndep_wr _)
              exact bufIndep_eseq (hr _ _) (bufIndep_wr _)
        · exact bufIndep_eseq (hl _ _) (bufIndep_eseq (bufIndep_wr _) (hr _ _))
    | lst tg elts =>
      have he : ∀ x ∈ elts, BufIndep (visit c2 g2 x) := by
        intro x hx
        apply ih x ?_ c2 g2
        have h1 := List.sizeOf_lt_of_mem hx
        simp_arith at ht
        omega
      simp only [visit]
      apply bufIndep_eseq (bufIndep_wr _)
      exact bufIndep_eseq (bi_join _ _ _ elts he) (bufIndep_wr _)
    | lam tg ps body =>
      have hb : BIV body := ih body (by simp_arith at ht; omega)
      rcases ps with _ | ⟨p, _ | ⟨q, rest⟩⟩ <;>
        (simp only [visit]
         exact bufIndep_eseq (bufIndep_wr _) (bufIndep_eseq (bufIndep_wr _) (hb _ _)))
    | assign tg tgts v =>
      have hv : BIV v := ih v (by simp_arith at ht; omega)
      simp only [visit]
      exact bi_visit_Assign _ _ tg tgts v hv
    | boolOp tg vs => simp only [visit]; exact bufIndep_thr _

/-- Buffer independence of the typed emitter, for every node. -/
theorem bi_visit_all (cls : VCls) (cfg : Cfg) (t : TNode) :
    BufIndep (visit cls cfg t) :=
  bi_visit_strong (sizeOf t) t (Nat.le_refl _) cls cfg

end Java

namespace Ruby

theorem splitLast_mem :
    ∀ (l front : List TNode) (lastA : TNode),
      splitLast l = some (front, lastA) → lastA ∈ l ∧ ∀ x ∈ front, x ∈ l := by
  intro l
  induction l with
  | nil => intro front lastA h; simp [splitLast] at h
  | cons a rest ih =>
    intro front lastA h
    cases rest with
    | nil =>
      simp [splitLast] at h
      obtain ⟨h1, h2⟩ := h
      subst h1; subst h2
      simp
    | cons b rest2 =>
      simp only [splitLast] at h
      cases hs : splitLast (b :: rest2) with
      | none => rw [hs] at h; simp at h
      | some p =>
        rw [hs] at h
        obtain ⟨front2, l2⟩ := p
        simp at h
        obtain ⟨h1, h2⟩ := h
        have hrec := ih front2 l2 hs
        subst h1; subst h2
        constructor
        · simp [hrec.1]
        · intro x hx
          cases hx with
          | head => simp
          | tail _ hx2 => simp [hrec.2 x hx2]

/-- Shorthand: the ruby visit of this node is buffer-independent. -/
def BIR (t : TNode) : Prop := BufIndep (visit t)

theorem bi_visit_Name_r (id : String) : BufIndep (visit_Name id) := by
  unfold visit_Name
  exact bufIndep_ite _ (bufIndep_thr _) (bufIndep_wr _)

theorem bi_visit_keyword (tg : Option Bool) (a : String) (v : TNode)
    (h : BufIndep (visit v)) : BufIndep (visit_keyword (TKeyword.mk tg a v)) := by
  simp only [visit_keyword]
  exact bufIndep_eseq (bufIndep_wr _) (bufIndep_eseq (bufIndep_wr _) h)

theorem bi_join_kw_rest :
    ∀ (kws : List TKeyword),
      (∀ tg a v, TKeyword.mk tg a v ∈ kws → BufIndep (visit v)) →
      BufIndep (join_kw_rest kws)
  | [], _ => by simp only [join_kw_rest]; exact bufIndep_nop
  | TKeyword.mk tg a v :: ks, h => by
    simp only [join_kw_rest]
    apply bufIndep_eseq (bufIndep_wr _)
    apply bufIndep_eseq
    · exact bi_visit_keyword tg a v (h tg a v (by simp))
    · exact bi_join_kw_rest ks (fun tg2 a2 v2 hx => h tg2 a2 v2 (by simp [hx]))

theorem bi_join_rest_r :
    ∀ (l : List TNode), (∀ x ∈ l, BufIndep (visit x)) → BufIndep (join_rest l)
  | [], _ => by simp only [join_rest]; exact bufIndep_nop
  | x :: xs, h => by
    simp only [join_rest]
    apply bufIndep_eseq (bufIndep_wr _)
    apply bufIndep_eseq
    · exact h x (by simp)
    · exact bi_join_rest_r xs (fun y hy => h y (by simp [hy]))

theorem bi_join_list (l : List TNode) (h : ∀ x ∈ l, BufIndep (visit x)) :
    BufIndep (join_list l) := by
  cases l with
  | nil => simp only [join_list]; exact bufIndep_nop
  | cons x xs =>
    simp only [join_list]
    apply bufIndep_eseq (h x (by simp))
    exact bi_join_rest_r xs (fun y hy => h y (by simp [hy]))

theorem bi_join_mixed (args : List TNode) (kws : List TKeyword)
    (hargs : ∀ a ∈ args, BufIndep (visit a))
    (hkws : ∀ tg a v, TKeyword.mk tg a v ∈ kws → BufIndep (visit v)) :
    BufIndep (join_mixed args kws) := by
  cases args with
  | nil =>
    cases kws with
    | nil => simp only [join_mixed]; exact bufIndep_nop
    | cons k ks =>
      obtain ⟨tg, a, v⟩ := k
      simp only [join_mixed]
      apply bufIndep_eseq
      · exact bi_visit_keyword tg a v (hkws tg a v (by simp))
      · exact bi_join_kw_rest ks (fun tg2 a2 v2 hx => hkws tg2 a2 v2 (by simp [hx]))
  | cons a rest =>
    simp only [join_mixed]
    apply bufIndep_eseq (hargs a (by simp))
    apply bufIndep_eseq
    · exact bi_join_rest_r rest (fun y hy => hargs y (by simp [hy]))
    · exact bi_join_kw_rest kws hkws

theorem bi_to_args_r (args : List TNode) (kws : List TKeyword)
    (hargs : ∀ a ∈ args, BufIndep (visit a))
    (hkws : ∀ tg a v, TKeyword.mk tg a v ∈ kws → BufIndep (visit v)) :
    BufIndep (to_args args kws) := by
  simp only [to_args]
  apply bufIndep_ite
  · exact bufIndep_nop
  · exact bufIndep_eseq (bufIndep_wr _)
      (bufIndep_eseq (bi_join_mixed args kws hargs hkws) (bufIndep_wr _))

theorem bi_visit_Call_func (f : TNode)
    (h : BufIndep (visit f))
    (hsub : ∀ ftg fv fa, f = TNode.attr ftg fv fa → BufIndep (visit fv)) :
    BufIndep (visit_Call_func f) := by
  cases f
  case attr ftg fv fa =>
    simp only [visit_Call_func]
    exact bufIndep_ite _ (hsub ftg fv fa rfl) h
  all_goals (simp only [visit_Call_func]; exact h)

theorem bi_visit_Call_args (kws : List TKeyword) (args : List TNode)
    (hargs : ∀ a ∈ args, BufIndep (visit a))
    (hkws : ∀ tg a v, TKeyword.mk tg a v ∈ kws → BufIndep (visit v)) :
    BufIndep (visit_Call_args kws args) := by
  rw [visit_Call_args.eq_def]
  split
  · rename_i front lastA hs
    have hmem := splitLast_mem args front lastA hs
    apply bufIndep_ite
    · apply bufIndep_eseq
      · exact bi_to_args_r front kws (fun x hx => hargs x (hmem.2 x hx)) hkws
      · exact hargs lastA hmem.1
    · exact bi_to_args_r args kws hargs hkws
  · exact bi_to_args_r args kws hargs hkws

end Ruby

namespace Ruby

/-- Every `Ruby.visit` step is buffer-independent (strong induction on
the node size). -/
theorem bi_visit_strong_r : ∀ (n : Nat) (t : TNode), sizeOf t ≤ n → BIR t := by
  intro n
  induction n with
  | zero =>
    intro t ht
    exact absurd ht (by have := tnode_sizeOf_pos t; omega)
  | succ n ih =>
    intro t ht
    cases t with
    | num tg nn => simp only [BIR, visit]; exact bufIndep_wr _
    | nameC tg v => cases v <;> (simp only [BIR, visit]; exact bufIndep_wr _)
    | name tg id => simp only [BIR, visit]; exact bi_visit_Name_r _
    | attr tg v a =>
      have hv : BIR v := ih v (by simp_arith at ht; omega)
      simp only [BIR, visit]
      exact bufIndep_eseq hv (bufIndep_eseq (bufIndep_wr _) (bufIndep_wr _))
    | call tg f args kws =>
      have hf : BIR f := ih f (by simp_arith at ht; omega)
      have hargs : ∀ a ∈ args, BufIndep (visit a) := by
        intro a ha
        apply ih a
        have h1 := List.sizeOf_lt_of_mem ha
        simp_arith at ht
        omega
      have hkws : ∀ ktg ka kv, TKeyword.mk ktg ka kv ∈ kws → BufIndep (visit kv) := by
        intro ktg ka kv hk
        apply ih kv
        have h1 := List.sizeOf_lt_of_mem hk
        simp_arith at ht h1
        omega
      have hsub : ∀ ftg fv fa, f = TNode.attr ftg fv fa → BufIndep (visit fv) := by
        intro ftg fv fa heq
        apply ih fv
        subst heq
        simp_arith at ht
        omega
      simp only [BIR, visit]
      exact bufIndep_eseq (bi_visit_Call_func f hf hsub) (bi_visit_Call_args kws args hargs hkws)
    | subscript tg v sl =>
      have hv : BIR v := ih v (by simp_arith at ht; omega)
      cases sl with
      | index itg iv =>
        have hiv : BIR iv := ih iv (by simp_arith at ht; omega)
        simp only [BIR, visit]
        apply bufIndep_eseq hv
        exact bufIndep_eseq (bufIndep_wr _) (bufIndep_eseq hiv (bufIndep_wr _))
      | slice stg lo hi st =>
        cases lo with
        | none =>
          cases hi with
          | none =>
            simp only [BIR, visit]
            apply bufIndep_eseq hv
            apply bufIndep_eseq (bufIndep_wr _)
            exact bufIndep_eseq (bufIndep_thr _) (bufIndep_eseq (bufIndep_wr _) (bufIndep_wr _))
          | some u =>
            have hu : BIR u := ih u (by simp_arith at ht; omega)
            simp only [BIR, visit]
            apply bufIndep_eseq hv
            apply bufIndep_eseq (bufIndep_wr _)
            exact bufIndep_eseq (bufIndep_thr _)
              (bufIndep_eseq (bufIndep_eseq (bufIndep_wr _) hu) (bufIndep_wr _))
        | some l =>
          have hl : BIR l := ih l (by simp_arith at ht; omega)
          cases hi with
          | none =>
            simp only [BIR, visit]
            apply bufIndep_eseq hv
            apply bufIndep_eseq (bufIndep_wr _)
            exact bufIndep_eseq hl (bufIndep_eseq (bufIndep_wr _) (bufIndep_wr _))
          | some u =>
            have hu : BIR u := ih u (by simp_arith at ht; omega)
            simp only [BIR, visit]
            apply bufIndep_eseq hv
            apply bufIndep_eseq (bufIndep_wr _)
            exact bufIndep_eseq hl
              (bufIndep_eseq (bufIndep_eseq (bufIndep_wr _) hu) (bufIndep_wr _))
    | unaryOp tg op o =>
      have ho : BIR o := ih o (by simp_arith at ht; omega)
      simp only [BIR, visit]
      exact bufIndep_eseq (bufIndep_wr _) ho
    | binOp tg l op r =>
      have hl : BIR l := ih l (by simp_arith at ht; omega)
      have hr : BIR r := ih r (by simp_arith at ht; omega)
      simp only [BIR, visit]
      apply bufIndep_eseq (bufIndep_wr _)
      exact bufIndep_eseq hl (bufIndep_eseq (bufIndep_wr _) (bufIndep_eseq hr (bufIndep_wr _)))
    | lst tg elts =>
      have he : ∀ x ∈ elts, BufIndep (visit x) := by
        intro x hx
        apply ih x
        have h1 := List.sizeOf_lt_of_mem hx
        simp_arith at ht
        omega
      simp only [BIR, visit]
      apply bufIndep_eseq (bufIndep_wr _)
      exact bufIndep_eseq (bi_join_list elts he) (bufIndep_wr _)
    | lam tg ps body =>
      have hb : BIR body := ih body (by simp_arith at ht; omega)
      simp only [BIR, visit]
      apply bufIndep_eseq (bufIndep_wr _)
      apply bufIndep_eseq (bufIndep_wr _)
      exact bufIndep_eseq (bufIndep_wr _) (bufIndep_eseq hb (bufIndep_wr _))
    | assign tg tgts v =>
      have hv : BIR v := ih v (by simp_arith at ht; omega)
      rcases tgts with _ | ⟨t0, _ | ⟨t1, rest⟩⟩ <;> simp only [BIR, visit]
      · exact bufIndep_thr _
      · exact bufIndep_eseq (bufIndep_wr _) (bufIndep_eseq (bufIndep_wr _) hv)
      · exact bufIndep_thr _
    | boolOp tg vs => simp only [BIR, visit]; exact bufIndep_thr _

/-- Buffer independence of the ruby emitter, for every node. -/
theorem bi_visit_all_r (t : TNode) : BufIndep (visit t) :=
  bi_visit_strong_r (sizeOf t) t (Nat.le_refl _)

end Ruby

/-! ## Untagged descendants (for the generic analyzer rule) -/

mutual

/-- All `is_reql` attributes in the tree are absent. -/
def tagsNone : TNode → Bool
  | .num tg _ => tg == Option.none
  | .nameC tg _ => tg == Option.none
  | .name tg _ => tg == Option.none
  | .attr tg v _ => tg == Option.none && tagsNone v
  | .call tg f args kws => tg == Option.none && tagsNone f && tagsNoneList args && tagsNoneKws kws
  | .subscript tg v sl => tg == Option.none && tagsNone v && tagsNoneSl sl
  | .unaryOp tg _ o => tg == Option.none && tagsNone o
  | .binOp tg l _ r => tg == Option.none && tagsNone l && tagsNone r
  | .lst tg elts => tg == Option.none && tagsNoneList elts
  | .lam tg _ body => tg == Option.none && tagsNone body
  | .assign tg _ v => tg == Option.none && tagsNone v
  | .boolOp tg vs => tg == Option.none && tagsNoneList vs

def tagsNoneList : List TNode → Bool
  | [] => Bool.true
  | t :: ts => tagsNone t && tagsNoneList ts

def tagsNoneKws : List TKeyword → Bool
  | [] => Bool.true
  | .mk tg _ v :: ks => tg == Option.none && tagsNone v && tagsNoneKws ks

def tagsNoneSl : TSl → Bool
  | .index tg v => tg == Option.none && tagsNone v
  | .slice tg lo hi st =>
    tg == Option.none && tagsNoneOpt lo && tagsNoneOpt hi && tagsNoneOpt st

def tagsNoneOpt : Option TNode → Bool
  | Option.none => Bool.true
  | some t => tagsNone t

end

/-- Positivity of `sizeOf` on raw nodes. -/
theorem node_sizeOf_pos (n : Node) : 0 < sizeOf n := by
  cases n <;> simp_arith

theorem tagsNoneList_of_elems (l : List TNode) (h : ∀ t ∈ l, tagsNone t = Bool.true) :
    tagsNoneList l = Bool.true := by
  induction l with
  | nil => simp [tagsNoneList]
  | cons t ts ih =>
    simp only [tagsNoneList, Bool.and_eq_true]
    exact ⟨h t (by simp), ih (fun x hx => h x (by simp [hx]))⟩

/-- `untag` produces a tree in which no node carries an `is_reql` tag:
exactly the state of the descendants of a node handled by the analyzer's
`generic_visit`, which does not traverse. -/
theorem untag_tagsNone : ∀ (k : Nat) (n : Node), sizeOf n ≤ k → tagsNone (untag n) = Bool.true := by
  intro k
  induction k with
  | zero =>
    intro n hn
    exact absurd hn (by have := node_sizeOf_pos n; omega)
  | succ k ih =>
    intro n hn
    cases n with
    | num m => simp [untag, tagsNone]
    | nameC v => simp [untag, tagsNone]
    | name id => simp [untag, tagsNone]
    | attr v a =>
      simp only [untag, tagsNone, Bool.and_eq_true]
      exact ⟨rfl, ih v (by simp_arith at hn; omega)⟩
    | call f args kws =>
      have hargs : tagsNoneList (untagList args) = Bool.true := by
        have : ∀ a ∈ args, tagsNone (untag a) = Bool.true := by
          intro a ha
          apply ih a
          have h1 := List.sizeOf_lt_of_mem ha
          simp_arith at hn
          omega
        clear hn
        induction args with
        | nil => simp [untagList, tagsNoneList]
        | cons a rest ih2 =>
          simp only [untagList, tagsNoneList, Bool.and_eq_true]
          exact ⟨this a (by simp), ih2 (fun x hx => this x (by simp [hx]))⟩
      have hkws : tagsNoneKws (untagKws kws) = Bool.true := by
        have : ∀ a v, Keyword.mk a v ∈ kws → tagsNone (untag v) = Bool.true := by
          intro a v hk
          apply ih v
          have h1 := List.sizeOf_lt_of_mem hk
          simp_arith at hn h1
          omega
        clear hn
        induction kws with
        | nil => simp [untagKws, tagsNoneKws]
        | cons kk rest ih2 =>
          obtain ⟨ka, kv⟩ := kk
          simp only [untagKws, tagsNoneKws, Bool.and_eq_true]
          exact ⟨⟨rfl, this ka kv (by simp)⟩,
            ih2 (fun a2 v2 hx => this a2 v2 (by simp [hx]))⟩
      simp only [untag, tagsNone, Bool.and_eq_true]
      exact ⟨⟨⟨rfl, ih f (by simp_arith at hn; omega)⟩, hargs⟩, hkws⟩
    | subscript v sl =>
      have hsl : tagsNoneSl (untagSl sl) = Bool.true := by
        cases sl with
        | index iv =>
          simp only [untagSl, tagsNoneSl, Bool.and_eq_true]
          exact ⟨rfl, ih iv (by simp_arith at hn; omega)⟩
        | slice lo hi st =>
          have hopt : ∀ o : Option Node, sizeOf o + 2 ≤ sizeOf (Node.subscript v (Sl.slice lo hi st)) →
              tagsNoneOpt (untagOpt o) = Bool.true := by
            intro o ho
            cases o with
            | none => simp [untagOpt, tagsNoneOpt]
            | some w =>
              simp only [untagOpt, tagsNoneOpt]
              apply ih w
              simp_arith at hn ho ⊢
              omega
          simp only [untagSl, tagsNoneSl, Bool.and_eq_true]
          refine ⟨⟨⟨rfl, hopt lo (by simp_arith <;> omega)⟩, hopt hi (by simp_arith <;> omega)⟩,
            hopt st (by simp_arith <;> omega)⟩
      simp only [untag, tagsNone, Bool.and_eq_true]
      exact ⟨⟨rfl, ih v (by simp_arith at hn; omega)⟩, hsl⟩
    | unaryOp op o =>
      simp only [untag, tagsNone, Bool.and_eq_true]
      exact ⟨rfl, ih o (by simp_arith at hn; omega)⟩
    | binOp l op r =>
      simp only [untag, tagsNone, Bool.and_eq_true]
      exact ⟨⟨rfl, ih l (by simp_arith at hn; omega)⟩, ih r (by simp_arith at hn; omega)⟩
    | lst elts =>
      have : ∀ a ∈ elts, tagsNone (untag a) = Bool.true := by
        intro a ha
        apply ih a
        have h1 := List.sizeOf_lt_of_mem ha
        simp_arith at hn
        omega
      have helts : tagsNoneList (untagList elts) = Bool.true := by
        clear hn
        induction elts with
        | nil => simp [untagList, tagsNoneList]
        | cons a rest ih2 =>
          simp only [untagList, tagsNoneList, Bool.and_eq_true]
          exact ⟨this a (by simp), ih2 (fun x hx => this x (by simp [hx]))⟩
      simp only [untag, tagsNone, Bool.and_eq_true]
      exact ⟨rfl, helts⟩
    | lam ps body =>
      simp only [untag, tagsNone, Bool.and_eq_true]
      exact ⟨rfl, ih body (by simp_arith at hn; omega)⟩
    | assign tgts v =>
      simp only [untag, tagsNone, Bool.and_eq_true]
      exact ⟨rfl, ih v (by simp_arith at hn; omega)⟩
    | boolOp vs =>
      have : ∀ a ∈ vs, tagsNone (untag a) = Bool.true := by
        intro a ha
        apply ih a
        have h1 := List.sizeOf_lt_of_mem ha
        simp_arith at hn
        omega
      have hvs : tagsNoneList (untagList vs) = Bool.true := by
        clear hn
        induction vs with
        | nil => simp [untagList, tagsNoneList]
        | cons a rest ih2 =>
          simp only [untagList, tagsNoneList, Bool.and_eq_true]
          exact ⟨this a (by simp), ih2 (fun x hx => this x (by simp [hx]))⟩
      simp only [untag, tagsNone, Bool.and_eq_true]
      exact ⟨rfl, hvs⟩

/-! ## Claim theorems -/

/-- The tag of the slice part of an analyzed subscript node. -/
def subSliceTagOf : TNode → Option Bool
  | .subscript _ _ sl => sl.tagOf
  | _ => Option.none

/-- The exception class of a failed conversion (`Option.none` when the
conversion succeeded). -/
def errClsOf : Except Err String → Option String
  | Except.error e => some e.cls
  | Except.ok _ => Option.none

/-- C1: for every Call node, the analyzer gives the call the tag of its
callee, and analyzes the positional arguments and keyword values with
`inheritedContext=true` (same `queryRootNames`) exactly when the call is
tagged; an untagged call's arguments are analyzed with the call's own
ambient context unchanged (`pp = self`). Keyword nodes additionally
receive the call's tag. -/
theorem call_tag_and_context (ctx : Ctx) (f : Node) (args : List Node) (kws : List Keyword) :
    (IsReql.visit ctx (.call f args kws)).tagOf = (IsReql.visit ctx f).tagOf ∧
    IsReql.visit ctx (.call f args kws) =
      .call (some (tagD (IsReql.visit ctx f))) (IsReql.visit ctx f)
        (IsReql.visitList
          (if tagD (IsReql.visit ctx f) then Ctx.mk ctx.reql_vars Bool.true else ctx) args)
        (IsReql.visitKeywords
          (if tagD (IsReql.visit ctx f) then Ctx.mk ctx.reql_vars Bool.true else ctx)
          (some (tagD (IsReql.visit ctx f))) kws) := by
  have h := IsReql.visit_tag_isSome ctx f
  obtain ⟨b, hb⟩ := Option.isSome_iff_exists.mp h
  refine ⟨?_, rfl⟩
  show some (tagD (IsReql.visit ctx f)) = (IsReql.visit ctx f).tagOf
  rw [hb]
  simp [tagD, hb]

/-- C2 (counterexample): the claim says the index of a subscript with an
*untagged* base is analyzed with `inheritedContext` reset to false. In
the code the sub-visitor is `self` (the ambient context, unchanged): at
ambient `passed_to_reql=true`, base `x` untagged, the Index node's tag —
which equals the analyzing visitor's `passed_to_reql` — comes out `true`,
whereas analyzing it with the reset context would make it `false`. -/
theorem subscript_reset_counterexample :
    ¬ (subSliceTagOf
        (IsReql.visit ⟨["r"], Bool.true⟩ (.subscript (.name "x") (.index (.num 1)))) =
      (IsReql.visitSlice ⟨["r"], Bool.false⟩ (.index (.num 1))).tagOf) := by
  decide

/-- C2 (amended): for every Subscript node, the analyzer gives the
subscript the tag of its base, and analyzes the index/slice with
`inheritedContext=true` when the base is tagged, and with the enclosing
ambient context unchanged (not reset) when the base is untagged. -/
theorem subscript_tag_and_context (ctx : Ctx) (b : Node) (sl : Sl) :
    (IsReql.visit ctx (.subscript b sl)).tagOf = (IsReql.visit ctx b).tagOf ∧
    IsReql.visit ctx (.subscript b sl) =
      .subscript (some (tagD (IsReql.visit ctx b))) (IsReql.visit ctx b)
        (IsReql.visitSlice
          (if tagD (IsReql.visit ctx b) then Ctx.mk ctx.reql_vars Bool.true else ctx) sl) := by
  have h := IsReql.visit_tag_isSome ctx b
  obtain ⟨bb, hb⟩ := Option.isSome_iff_exists.mp h
  refine ⟨?_, rfl⟩
  show some (tagD (IsReql.visit ctx b)) = (IsReql.visit ctx b).tagOf
  rw [hb]
  simp [tagD, hb]

/-- C3 (code bug): `Visitor.visit_Assign` constructs
`RuntimeError("We only support assigning to one variable")` for a
multi-target assignment but never raises it (the `raise` keyword is
missing, unlike the ruby and js converters), so converting `a = b = 1`
with declared type `Long` silently emits text for the first target
instead of failing. -/
theorem assign_multi_target_not_rejected :
    Java.convert { Java.initCfg with type_ := some "Long" }
      (.assign (some Bool.false) ["a", "b"] (.num (some Bool.false) 1)) =
      Except.ok "Long a = (Long) (1L);" := by
  simp [Java.convert, Java.visit, Java.visit_Assign, Java.visit_Assign_value, Java.visit_Num,
    eseq, wr, nop, thr, Java.initCfg]
  rfl

/-- C4 (code bug): `cast_null` is documented to emit `(ReqlExpr) ` before
any argument that represents null, but its second test compares
`arg.value == "None"` — the `NameConstant` payload against the *string*
`"None"` — which is never true. A genuine null literal therefore renders
without the cast, while a `null` identifier gets it. -/
theorem cast_null_literal_not_cast :
    Java.convert Java.initCfg
      (.call (some Bool.false) (.name (some Bool.false) "f")
        [.nameC (some Bool.false) PyConst.none] []) = Except.ok "f(null)" ∧
    Java.convert Java.initCfg
      (.call (some Bool.false) (.name (some Bool.false) "f")
        [.name (some Bool.false) "null"] []) = Except.ok "f((ReqlExpr) null)" := by
  constructor <;>
    simp [Java.convert, Java.visit, Java.visit_Call_base, Java.to_args, Java.cast_null,
      Java.args_rest, Java.optargs, Java.skip_if_arity_check, Java.attr_equals,
      Java.isCastNullArg, Java.valueEqStrNone, Java.visit_Name, Java.nameMapped,
      Java.visit_NameConstant, Java.JAVA_KEYWORDS, Java.OBJECT_METHODS,
      eseq, wr, nop, thr]

/-- C5 (counterexample): a matched skip rule (the `frozenset` rule in
`visit_Name`) raises `RuntimeError` — exactly the class that
`generic_visit` raises for an unmodeled construct (here a `BoolOp`), so
the two outcomes are *not* distinguishable by exception kind. -/
theorem skip_kind_not_distinct_cex :
    errClsOf (Java.convert Java.initCfg (.name Option.none "frozenset")) = some "RuntimeError" ∧
    errClsOf (Java.convert Java.initCfg (.boolOp Option.none [])) = some "RuntimeError" := by
  constructor <;>
    simp [Java.convert, Java.visit, Java.visit_Name, errClsOf, eseq, wr, nop, thr]

/-- C5 (amended): every source shape matched by a modelled Skip/Transform
rule raises an exception of the *same* class as the generic
unmodeled-construct failure. In the typed (Java) emitter both the
generic `generic_visit` failure and every skip site — the `frozenset`
rule in `visit_Name` (either visitor class), the `r.row` rule in
`ReQLVisitor.visit_Attribute`, and the non-lambda-`for_each` and
non-function-`map` rules in the post-`super()` checks of
`ReQLVisitor.visit_Call` (shown to be exactly the second stage of the
ReQL call rendering) — raise `RuntimeError`; in the ruby emitter both
the generic failure and the `frozenset` skip raise plain `Exception`.
Callers can therefore separate a skip from a generic failure only by
message, not by kind. -/
theorem skip_same_kind_as_generic :
    (∀ (cls : Java.VCls) (cfg : Java.Cfg) (tg : Option Bool) (vs : List TNode) (s : String),
      errClsOf (Java.visit cls cfg (.boolOp tg vs) s) = some "RuntimeError") ∧
    (∀ (cls : Java.VCls) (cfg : Java.Cfg) (tg : Option Bool) (s : String),
      errClsOf (Java.visit cls cfg (.name tg "frozenset") s) = some "RuntimeError") ∧
    (∀ (cfg : Java.Cfg) (tg vtg : Option Bool) (s : String),
      errClsOf (Java.visit Java.VCls.reql cfg (.attr tg (.name vtg "r") "row") s) =
        some "RuntimeError") ∧
    (∀ (cfg : Java.Cfg) (tg : Option Bool) (f : TNode) (args : List TNode)
        (kws : List TKeyword),
      Java.visit Java.VCls.reql cfg (.call tg f args kws) =
        eseq (Java.visit_Call_base Java.VCls.reql cfg f args kws)
          (Java.reql_call_checks f args)) ∧
    (∀ (ftg : Option Bool) (fv a : TNode) (rest : List TNode) (s : String),
      errClsOf (Java.reql_call_checks (.attr ftg fv "for_each") (a :: rest) s) =
        (if isLam a then Option.none else some "RuntimeError")) ∧
    (∀ (ftg : Option Bool) (fv a : TNode) (front : List TNode) (s : String),
      errClsOf (Java.reql_call_checks (.attr ftg fv "map") (front ++ [a]) s) =
        (match Java.map_arg_check a with
         | Except.ok b => if b then Option.none else some "RuntimeError"
         | Except.error e => some e.cls)) ∧
    (∀ (tg : Option Bool) (vs : List TNode) (s : String),
      errClsOf (Ruby.visit (.boolOp tg vs) s) = some "Exception") ∧
    (∀ (tg : Option Bool) (s : String),
      errClsOf (Ruby.visit (.name tg "frozenset") s) = some "Exception") := by
  refine ⟨?_, ?_, ?_, ?_, ?_, ?_, ?_, ?_⟩
  · intro cls cfg tg vs s
    simp [Java.visit, errClsOf, thr]
  · intro cls cfg tg s
    simp [Java.visit, Java.visit_Name, errClsOf, thr]
  · intro cfg tg vtg s
    simp [Java.visit, Java.visit_Attribute, is_name, errClsOf, thr]
  · intro cfg tg f args kws
    simp [Java.visit]
  · intro ftg fv a rest s
    cases hl : isLam a <;>
      simp [Java.reql_call_checks, Java.attr_equals, errClsOf, thr, nop, hl]
  · intro ftg fv a front s
    have hg : (front ++ [a]).getLast? = some a := List.getLast?_concat front
    simp only [Java.reql_call_checks, Java.attr_equals, hg]
    cases hm : Java.map_arg_check a with
    | error e => simp [exceptK, errClsOf, thr]
    | ok b => cases b <;> simp [exceptK, errClsOf, thr, nop]
  · intro tg vs s
    simp [Ruby.visit, errClsOf, thr]
  · intro tg s
    simp [Ruby.visit, Ruby.visit_Name, errClsOf, thr]

/-- C6: a BinOp's tag is (operator is not exponentiation) AND
(tag(left) OR tag(right)); in particular every `Pow` BinOp is tagged
false regardless of its operands. -/
theorem binop_tag (ctx : Ctx) (l r : Node) (op : BOpK) :
    (IsReql.visit ctx (.binOp l op r)).tagOf =
      some (decide (op ≠ BOpK.pow) &&
        (tagD (IsReql.visit ctx l) || tagD (IsReql.visit ctx r))) ∧
    (IsReql.visit ctx (.binOp l BOpK.pow r)).tagOf = some Bool.false :=
  ⟨rfl, rfl⟩

/-- C7: in the typed emitter's query-expression slice rendering, an
omitted lower bound defaults to 0, an omitted upper bound defaults to -1
and marks the slice right-closed (rendered as the
`.optArg("right_bound", "closed")` suffix), a `UnaryOp(USub, Num)` bound
renders as the corresponding negative integer, and in particular
`data[-2:]` renders as `.slice(-2, -1)` with the right-closed option. -/
theorem slice_bounds_and_scenario :
    (∀ d : Int, Java.get_bound Option.none d = Except.ok d) ∧
    (∀ (tg tg2 : Option Bool) (k d : Int),
      Java.get_bound (some (.unaryOp tg UOp.usub (.num tg2 k))) d = Except.ok (-k)) ∧
    (∀ hi : Option TNode, Java.get_slice_bounds Option.none hi =
      (Java.get_bound hi (-1)).map (fun u => (0, u, hi.isNone))) ∧
    (∀ lo : Option TNode, Java.get_slice_bounds lo Option.none =
      (Java.get_bound lo 0).map (fun l => (l, -1, Bool.true))) ∧
    Java.visit Java.VCls.reql Java.initCfg
      (.subscript (some Bool.true) (.name (some Bool.true) "data")
        (.slice (some Bool.true)
          (some (.unaryOp (some Bool.false) UOp.usub (.num (some Bool.false) 2)))
          Option.none Option.none)) "" =
      Except.ok "data.slice(-2, -1).optArg(\"right_bound\", \"closed\")" := by
  refine ⟨fun d => rfl, fun tg tg2 k d => rfl, ?_, ?_, ?_⟩
  · intro hi
    cases hb : Java.get_bound hi (-1) with
    | error e =>
      simp only [Java.get_slice_bounds, Java.get_bound] at hb ⊢
      rw [hb]
      simp [Except.map]
    | ok u =>
      simp only [Java.get_slice_bounds, Java.get_bound] at hb ⊢
      rw [hb]
      simp [Except.map]
  · intro lo
    cases hb : Java.get_bound lo 0 with
    | error e =>
      simp only [Java.get_slice_bounds]
      rw [hb]
      simp [Except.map]
    | ok l =>
      simp only [Java.get_slice_bounds]
      rw [hb]
      simp [Java.get_bound, Except.map]
  · simp [Java.visit, Java.visit_Name, Java.nameMapped, Java.JAVA_KEYWORDS,
      Java.OBJECT_METHODS, Java.get_slice_bounds, Java.get_bound, isNumT, exceptK,
      eseq, wr, nop, thr, Java.initCfg]
    rfl

/-- C8: the concrete case-converter equalities from the specification:
`camel` splits snake case on underscores, title-cases and joins the
chunks and preserves a trailing underscore; `dromedary` additionally
lower-cases the first chunk; non-snake inputs only have their first
character case-flipped. -/
theorem case_converter_examples :
    camel "foo_bar" = "FooBar" ∧ camel "foo_bar_" = "FooBar_" ∧
    dromedary "foo_bar" = "fooBar" ∧ camel "fooBar" = "FooBar" ∧
    dromedary "FooBar" = "fooBar" := by
  refine ⟨?_, ?_, ?_, ?_, ?_⟩ <;> rfl

/-- C9: emission is a pure function of the tagged tree and the
configuration. Each visit appends to the `StringIO` buffer a delta (or
raises an exception) that is independent of the buffer's prior contents
— the only state a visitor carries — and `convert` starts from a fresh
buffer, so running the same emitter twice on the same tagged tree with
the same configuration yields byte-identical text. -/
theorem emitters_deterministic :
    (∀ (cls : Java.VCls) (cfg : Java.Cfg) (t : TNode) (s : String),
      Java.visit cls cfg t s = Except.map (fun o => s ++ o) (Java.visit cls cfg t "")) ∧
    (∀ (t : TNode) (s : String),
      Ruby.visit t s = Except.map (fun o => s ++ o) (Ruby.visit t "")) :=
  ⟨fun cls cfg t s => Java.bi_visit_all cls cfg t s,
   fun t s => Ruby.bi_visit_all_r t s⟩

/-- C10: a node kind with no dedicated analyzer rule (a boolean
operation, or an assignment) gets `is_reql = False` from `generic_visit`
and is not traversed: all of its descendants keep their `is_reql`
attribute absent (`tagsNone` of the `untag` embedding). The analysis
itself is a total function — `IsReql.visit` returns a tree for every
input and raises nothing. -/
theorem generic_nodes_untagged (ctx : Ctx) (vs : List Node) (tgts : List String) (v : Node) :
    IsReql.visit ctx (.boolOp vs) = .boolOp (some Bool.false) (untagList vs) ∧
    IsReql.visit ctx (.assign tgts v) = .assign (some Bool.false) tgts (untag v) ∧
    (∀ n : Node, tagsNone (untag n) = Bool.true) :=
  ⟨rfl, rfl, fun n => untag_tagsNone (sizeOf n) n (Nat.le_refl _)⟩
